import Mathlib

/-!
Shallow embedding of `nova/scheduler/least_cost.py` (the least-cost host
weighing algorithm) and proofs about it.

Modelling conventions:
* Python floats are modelled as exact rationals (`ℚ`); the algorithm only
  adds, subtracts, multiplies and divides, and every claim under study is
  about exact values.
* Python exceptions are modelled with `Except PyErr`: the code under study
  can raise `ValueError` (via `min`/`max` of an empty sequence),
  `ZeroDivisionError` (float division by zero) and `IndexError`
  (subscripting an empty list).  The source file never raises any other
  exception; in particular it contains no `InvalidInput` or
  `ComputationError` path.
* Python's `sorted` is a stable sort by the `<` comparison on the tuples
  `(final_score, (host, hostinfo))`.  It is modelled by
  `List.insertionSort` (also stable) under the total preorder `hostLe`,
  which compares the score first and then the host name byte-wise, the way
  Python compares a tuple of a float and a tuple whose first component is a
  string.  When both the scores and the host names are equal Python 2 would
  fall back to an identity-based comparison of the `HostInfo` objects;
  `hostLe` treats such pairs as equivalent (so the stable sort keeps their
  original order).  This is only reachable when two entries share a host
  name, which the surrounding system rules out (each host appears once).
-/

namespace LeastCost

/-- Per-host resource snapshot: the fields of `HostInfo` that the cost
functions in `least_cost.py` read. -/
structure HostInfo where
  free_ram_mb : ℚ
  free_vcpus : ℚ
  free_disk_gb : ℚ
deriving DecidableEq

/-- Arbitrary options dict, passed unchanged to every cost function. -/
abbrev Options := List (String × String)

/-- A cost function: `(host_info, options) -> float`. -/
abbrev CostFn := HostInfo → Options → ℚ

/-- Python exceptions that the code in `least_cost.py` can raise. -/
inductive PyErr where
  | valueError
  | zeroDivisionError
  | indexError
deriving DecidableEq

/-- Result entity of `least_cost.py` (class `WeightedHost`): `__init__`
defaults `host`, `blob`, `zone` and `hostinfo` to `None`. -/
structure WeightedHost where
  weight : ℚ
  host : Option String := none
  blob : Option String := none
  zone : Option String := none
  hostinfo : Option HostInfo := none
deriving DecidableEq

/-- Values that can appear in the dict built by `WeightedHost.to_dict`. -/
inductive DictVal where
  | num (q : ℚ)
  | str (s : String)
deriving DecidableEq

/-- One optional entry of the dict built by `WeightedHost.to_dict`:
Python's `if self.blob:` test is truthiness, so a missing (`None`) value
and an empty string are both omitted. -/
def optEntry (key : String) : Option String → List (String × DictVal)
  | none => []
  | some s => if s = "" then [] else [(key, DictVal.str s)]

/-- Model of `WeightedHost.to_dict` (lines 66-74): `weight` always, then
`blob`, `host`, `zone` each only when truthy. -/
def WeightedHost.to_dict (wh : WeightedHost) : List (String × DictVal) :=
  ("weight", DictVal.num wh.weight)
    :: (optEntry "blob" wh.blob ++ optEntry "host" wh.host ++ optEntry "zone" wh.zone)

/-- Model of `noop_cost_fn`: constant 1. -/
def noop_cost_fn : CostFn := fun _ _ => 1

/-- Model of `compute_fill_first_cost_fn`: raw `free_ram_mb`. -/
def compute_fill_first_cost_fn : CostFn := fun host_info _ => host_info.free_ram_mb

/-- Model of `compute_even_fill_vcpus_cost_fn`: `-1 * free_vcpus`. -/
def compute_even_fill_vcpus_cost_fn : CostFn := fun host_info _ => -1 * host_info.free_vcpus

/-- Model of `compute_even_fill_ram_cost_fn`: `-1 * free_ram_mb`. -/
def compute_even_fill_ram_cost_fn : CostFn := fun host_info _ => -1 * host_info.free_ram_mb

/-- Model of `compute_even_fill_disk_cost_fn`: `-1 * free_disk_gb`. -/
def compute_even_fill_disk_cost_fn : CostFn := fun host_info _ => -1 * host_info.free_disk_gb

/-- Python's `min(row)`: `ValueError` on an empty sequence, otherwise the
least element (a left fold of the binary min over the rest). -/
def pyMin : List ℚ → Except PyErr ℚ
  | [] => .error .valueError
  | x :: xs => .ok (xs.foldl min x)

/-- Python's `max(row)`, dually. -/
def pyMax : List ℚ → Except PyErr ℚ
  | [] => .error .valueError
  | x :: xs => .ok (xs.foldl max x)

/-- One entry of the normalisation loop (line 137 of the source):
`weight * float(score - score_min) / (score_max - score_min)`.
Python raises `ZeroDivisionError` when `score_max - score_min` is zero;
there is no guard for the tied case in the source. -/
def adjustScore (weight score_min score_max score : ℚ) : Except PyErr ℚ :=
  if score_max - score_min = 0 then .error .zeroDivisionError
  else .ok (weight * (score - score_min) / (score_max - score_min))

/-- Evaluation of a Python list comprehension whose body may raise:
left to right, first exception wins. -/
def mapExcept (f : α → Except PyErr β) : List α → Except PyErr (List β)
  | [] => .ok []
  | x :: xs => do
      let y ← f x
      let ys ← mapExcept f xs
      .ok (y :: ys)

/-- Lines 122-125 of the source: the grid of raw results, one row per
weighted function, one column per host. -/
def buildScores (weighted_fns : List (ℚ × CostFn)) (host_list : List (String × HostInfo))
    (options : Options) : List (List ℚ) :=
  weighted_fns.map fun wf => host_list.map fun h => wf.2 h.2 options

/-- Lines 127-138 of the source: per-row min and max, then the weighted
normalisation of every entry. The zipped quadruples follow
`zip(score_mins, score_maxes, weighted_fns, scores)`. -/
def adjustedScores (weighted_fns : List (ℚ × CostFn)) (host_list : List (String × HostInfo))
    (options : Options) : Except PyErr (List (List ℚ)) := do
  let scores := buildScores weighted_fns host_list options
  let score_mins ← mapExcept pyMin scores
  let score_maxes ← mapExcept pyMax scores
  mapExcept (fun q => mapExcept (adjustScore q.2.2.1.1 q.1 q.2.1) q.2.2.2)
    (score_mins.zip (score_maxes.zip (weighted_fns.zip scores)))

/-- Lines 140-144 of the source: sum the adjusted rows column-wise,
starting from `[0.0] * len(host_list)`. Every row produced by
`adjustedScores` has length `host_list.length`, so `zipWith` performs
exactly the indexed in-place additions of the Python loop. -/
def sumColumns (n : Nat) (rows : List (List ℚ)) : List ℚ :=
  rows.foldl (fun acc row => List.zipWith (· + ·) acc row) (List.replicate n 0)

/-- Aggregate score per host: `adjustedScores` followed by the column
sums of lines 140-144. -/
def finalScores (weighted_fns : List (ℚ × CostFn)) (host_list : List (String × HostInfo))
    (options : Options) : Except PyErr (List ℚ) := do
  let adjusted_scores ← adjustedScores weighted_fns host_list options
  .ok (sumColumns host_list.length adjusted_scores)

/-- Byte-wise lexicographic comparison of character lists, the order
Python 2 uses on byte strings. -/
def charListLe : List Char → List Char → Bool
  | [], _ => true
  | _ :: _, [] => false
  | a :: as, b :: bs => if a < b then true else if b < a then false else charListLe as bs

/-- Total preorder used to model Python's `sorted` on the tuples
`(final_score, (host, hostinfo))`: score first, host name second. -/
def hostLe (a b : ℚ × String × HostInfo) : Prop :=
  a.1 < b.1 ∨ (a.1 = b.1 ∧ charListLe a.2.1.data b.2.1.data = true)

instance : DecidableRel hostLe := fun a b =>
  inferInstanceAs (Decidable (a.1 < b.1 ∨ (a.1 = b.1 ∧ charListLe a.2.1.data b.2.1.data = true)))

/-- Model of `weighted_sum` (lines 106-153 of the source): grid, per-row
min/max, weighted normalisation, column sums, pairing with the host
tuples, ascending sort, first element wins. The winning `WeightedHost`
is built with `blob` and `zone` left at their `None` defaults. -/
def weighted_sum (weighted_fns : List (ℚ × CostFn)) (host_list : List (String × HostInfo))
    (options : Options) : Except PyErr WeightedHost := do
  let final_scores ← finalScores weighted_fns host_list options
  match List.insertionSort hostLe (final_scores.zip host_list) with
  | [] => .error .indexError
  | (weight, host, hostinfo) :: _ =>
      .ok { weight := weight, host := some host, hostinfo := some hostinfo }

/-- Row of raw scores of one weighted function over the host list (one
row of the grid built at lines 122-125). -/
def rawRow (wf : ℚ × CostFn) (host_list : List (String × HostInfo)) (options : Options) :
    List ℚ :=
  host_list.map fun h => wf.2 h.2 options

/-- Total version of the minimum of a list (0 on the empty list, where
the code would instead raise). -/
def listMin : List ℚ → ℚ
  | [] => 0
  | x :: xs => xs.foldl min x

/-- Total version of the maximum of a list. -/
def listMax : List ℚ → ℚ
  | [] => 0
  | x :: xs => xs.foldl max x

/-- Per-function minimum raw score (line 128 of the source). -/
def rowMin (wf : ℚ × CostFn) (host_list : List (String × HostInfo)) (options : Options) : ℚ :=
  listMin (rawRow wf host_list options)

/-- Per-function maximum raw score (line 129 of the source). -/
def rowMax (wf : ℚ × CostFn) (host_list : List (String × HostInfo)) (options : Options) : ℚ :=
  listMax (rawRow wf host_list options)

/-- Weighted normalised row of one function, in the non-erroring case. -/
def adjRow (wf : ℚ × CostFn) (host_list : List (String × HostInfo)) (options : Options) :
    List ℚ :=
  (rawRow wf host_list options).map fun s =>
    wf.1 * (s - rowMin wf host_list options) /
      (rowMax wf host_list options - rowMin wf host_list options)

/-- Predicate: one cost function gives every host the same raw score
(the degenerate row the spec's tie-break rule is about). -/
def rowAllEqual (wf : ℚ × CostFn) (host_list : List (String × HostInfo))
    (options : Options) : Prop :=
  ∀ a ∈ host_list, ∀ b ∈ host_list, wf.2 a.2 options = wf.2 b.2 options

section ExceptLemmas

variable {ε α β : Type _}

lemma bind_eq_ok {r : Except ε α} {f : α → Except ε β} {b : β} :
    (r >>= f) = .ok b ↔ ∃ a, r = .ok a ∧ f a = .ok b := by
  cases r with
  | ok a => simp [Bind.bind, Except.bind]
  | error e => simp [Bind.bind, Except.bind]

lemma ok_bind {a : α} {f : α → Except ε β} : ((.ok a : Except ε α) >>= f) = f a := rfl

lemma error_bind {e : ε} {f : α → Except ε β} :
    ((.error e : Except ε α) >>= f) = .error e := rfl

lemma not_ok_exists_error {r : Except ε α} (h : ¬ ∃ a, r = .ok a) : ∃ e, r = .error e := by
  cases r with
  | ok a => exact absurd ⟨a, rfl⟩ h
  | error e => exact ⟨e, rfl⟩

lemma map_ok {g : α → β} {a : α} : (Except.ok a : Except ε α).map g = .ok (g a) := rfl

lemma map_err {g : α → β} {e : ε} : (Except.error e : Except ε α).map g = .error e := rfl

end ExceptLemmas

section MapExceptLemmas

variable {α β : Type _} {f : α → Except PyErr β}

lemma mapExcept_congr_ok {g : α → β} :
    ∀ {l : List α}, (∀ x ∈ l, f x = .ok (g x)) → mapExcept f l = .ok (l.map g)
  | [], _ => rfl
  | x :: xs, h => by
    have hx : f x = .ok (g x) := h x (List.mem_cons_self x xs)
    have hxs : mapExcept f xs = .ok (xs.map g) :=
      mapExcept_congr_ok fun y hy => h y (List.mem_cons_of_mem x hy)
    simp [mapExcept, hx, hxs, ok_bind]

lemma mapExcept_ok_iff :
    ∀ {l : List α}, (∃ ys, mapExcept f l = .ok ys) ↔ ∀ x ∈ l, ∃ y, f x = .ok y := by
  intro l
  induction l with
  | nil => simp [mapExcept]
  | cons x xs ih =>
    constructor
    · rintro ⟨ys, hys⟩
      simp only [mapExcept, bind_eq_ok] at hys
      rcases hys with ⟨y, hy, ⟨zs, hzs, _⟩⟩
      intro a ha
      rcases List.mem_cons.mp ha with rfl | ha
      · exact ⟨y, hy⟩
      · exact ih.mp ⟨zs, hzs⟩ a ha
    · intro h
      rcases h x (List.mem_cons_self x xs) with ⟨y, hy⟩
      rcases ih.mpr (fun a ha => h a (List.mem_cons_of_mem x ha)) with ⟨zs, hzs⟩
      exact ⟨y :: zs, by simp [mapExcept, hy, hzs, ok_bind]⟩

lemma mapExcept_ok_length :
    ∀ {l : List α} {ys : List β}, mapExcept f l = .ok ys → ys.length = l.length := by
  intro l
  induction l with
  | nil => intro ys h; simp [mapExcept] at h; simp [← h]
  | cons x xs ih =>
    intro ys h
    simp only [mapExcept, bind_eq_ok] at h
    rcases h with ⟨y, _, ⟨zs, hzs, hcons⟩⟩
    have : (Except.ok (y :: zs) : Except PyErr (List β)) = .ok ys := hcons
    cases this
    simp [ih hzs]

lemma mapExcept_ok_forall_mem :
    ∀ {l : List α} {ys : List β}, mapExcept f l = .ok ys →
      ∀ y ∈ ys, ∃ x ∈ l, f x = .ok y := by
  intro l
  induction l with
  | nil =>
    intro ys h
    simp only [mapExcept, Except.ok.injEq] at h
    subst h
    intro y hy
    exact absurd hy (List.not_mem_nil y)
  | cons x xs ih =>
    intro ys h
    simp only [mapExcept, bind_eq_ok] at h
    rcases h with ⟨y, hy, ⟨zs, hzs, hcons⟩⟩
    have : (Except.ok (y :: zs) : Except PyErr (List β)) = .ok ys := hcons
    cases this
    intro b hb
    rcases List.mem_cons.mp hb with rfl | hb
    · exact ⟨x, List.mem_cons_self x xs, hy⟩
    · rcases ih hzs b hb with ⟨a, ha, hfa⟩
      exact ⟨a, List.mem_cons_of_mem x ha, hfa⟩

lemma mapExcept_map {γ : Type _} (g : γ → α) :
    ∀ (l : List γ), mapExcept f (l.map g) = mapExcept (fun x => f (g x)) l
  | [] => rfl
  | x :: xs => by simp [mapExcept, mapExcept_map g xs]

lemma mapExcept_map_except {g : β → β} :
    ∀ (l : List α),
      mapExcept (fun x => (f x).map g) l = (mapExcept f l).map (List.map g)
  | [] => rfl
  | x :: xs => by
    cases hx : f x with
    | error e => simp [mapExcept, hx, error_bind, map_err]
    | ok y =>
      cases hxs : mapExcept f xs with
      | error e =>
        simp [mapExcept, hx, hxs, mapExcept_map_except xs, ok_bind, error_bind, map_ok, map_err]
      | ok ys =>
        simp [mapExcept, hx, hxs, mapExcept_map_except xs, ok_bind, map_ok]

end MapExceptLemmas

section FoldMinMax

lemma foldl_min_le (xs : List ℚ) : ∀ (x : ℚ), ∀ y ∈ x :: xs, xs.foldl min x ≤ y := by
  induction xs with
  | nil =>
    intro x y hy
    simp only [List.mem_singleton] at hy
    simp [hy]
  | cons a as ih =>
    intro x y hy
    show as.foldl min (min x a) ≤ y
    have h0 : as.foldl min (min x a) ≤ min x a := ih (min x a) _ (List.mem_cons_self _ _)
    rcases List.mem_cons.mp hy with h | h
    · rw [h]; exact le_trans h0 (min_le_left _ _)
    · rcases List.mem_cons.mp h with h1 | h1
      · rw [h1]; exact le_trans h0 (min_le_right _ _)
      · exact ih (min x a) y (List.mem_cons_of_mem _ h1)

lemma foldl_min_mem (xs : List ℚ) : ∀ (x : ℚ), xs.foldl min x ∈ x :: xs := by
  induction xs with
  | nil => intro x; exact List.mem_cons_self _ _
  | cons a as ih =>
    intro x
    show as.foldl min (min x a) ∈ x :: a :: as
    rcases List.mem_cons.mp (ih (min x a)) with h | h
    · rcases min_choice x a with hc | hc
      · rw [h, hc]; exact List.mem_cons_self _ _
      · rw [h, hc]; exact List.mem_cons_of_mem _ (List.mem_cons_self _ _)
    · exact List.mem_cons_of_mem _ (List.mem_cons_of_mem _ h)

lemma le_foldl_max (xs : List ℚ) : ∀ (x : ℚ), ∀ y ∈ x :: xs, y ≤ xs.foldl max x := by
  induction xs with
  | nil =>
    intro x y hy
    simp only [List.mem_singleton] at hy
    simp [hy]
  | cons a as ih =>
    intro x y hy
    show y ≤ as.foldl max (max x a)
    have h0 : max x a ≤ as.foldl max (max x a) := ih (max x a) _ (List.mem_cons_self _ _)
    rcases List.mem_cons.mp hy with h | h
    · rw [h]; exact le_trans (le_max_left _ _) h0
    · rcases List.mem_cons.mp h with h1 | h1
      · rw [h1]; exact le_trans (le_max_right _ _) h0
      · exact ih (max x a) y (List.mem_cons_of_mem _ h1)

lemma foldl_max_mem (xs : List ℚ) : ∀ (x : ℚ), xs.foldl max x ∈ x :: xs := by
  induction xs with
  | nil => intro x; exact List.mem_cons_self _ _
  | cons a as ih =>
    intro x
    show as.foldl max (max x a) ∈ x :: a :: as
    rcases List.mem_cons.mp (ih (max x a)) with h | h
    · rcases max_choice x a with hc | hc
      · rw [h, hc]; exact List.mem_cons_self _ _
      · rw [h, hc]; exact List.mem_cons_of_mem _ (List.mem_cons_self _ _)
    · exact List.mem_cons_of_mem _ (List.mem_cons_of_mem _ h)

lemma listMin_le {l : List ℚ} (h : l ≠ []) : ∀ y ∈ l, listMin l ≤ y := by
  cases l with
  | nil => exact absurd rfl h
  | cons x xs => exact fun y hy => foldl_min_le xs x y hy

lemma listMin_mem {l : List ℚ} (h : l ≠ []) : listMin l ∈ l := by
  cases l with
  | nil => exact absurd rfl h
  | cons x xs => exact foldl_min_mem xs x

lemma le_listMax {l : List ℚ} (h : l ≠ []) : ∀ y ∈ l, y ≤ listMax l := by
  cases l with
  | nil => exact absurd rfl h
  | cons x xs => exact fun y hy => le_foldl_max xs x y hy

lemma listMax_mem {l : List ℚ} (h : l ≠ []) : listMax l ∈ l := by
  cases l with
  | nil => exact absurd rfl h
  | cons x xs => exact foldl_max_mem xs x

lemma listMin_eq_listMax_iff {l : List ℚ} (h : l ≠ []) :
    listMin l = listMax l ↔ ∀ a ∈ l, ∀ b ∈ l, a = b := by
  constructor
  · intro heq a ha b hb
    have h1 : listMin l ≤ a := listMin_le h a ha
    have h2 : a ≤ listMax l := le_listMax h a ha
    have h3 : listMin l ≤ b := listMin_le h b hb
    have h4 : b ≤ listMax l := le_listMax h b hb
    have ha' : a = listMin l := le_antisymm (heq ▸ h2) h1
    have hb' : b = listMin l := le_antisymm (heq ▸ h4) h3
    rw [ha', hb']
  · intro hall
    exact hall _ (listMin_mem h) _ (listMax_mem h)

end FoldMinMax

section SortLemmas

lemma charListLe_refl : ∀ (as : List Char), charListLe as as = true
  | [] => rfl
  | a :: as => by simp [charListLe, lt_irrefl, charListLe_refl as]

lemma charListLe_total : ∀ (as bs : List Char),
    charListLe as bs = true ∨ charListLe bs as = true
  | [], _ => Or.inl rfl
  | _ :: _, [] => Or.inr rfl
  | a :: as, b :: bs => by
    rcases lt_trichotomy a b with h | h | h
    · exact Or.inl (by simp [charListLe, h])
    · subst h
      rcases charListLe_total as bs with ht | ht
      · exact Or.inl (by simp [charListLe, lt_irrefl, ht])
      · exact Or.inr (by simp [charListLe, lt_irrefl, ht])
    · exact Or.inr (by simp [charListLe, h])

lemma charListLe_trans : ∀ (as bs cs : List Char),
    charListLe as bs = true → charListLe bs cs = true → charListLe as cs = true
  | [], _, _ => fun _ _ => rfl
  | a :: as, [], _ => fun h _ => by simp [charListLe] at h
  | a :: as, b :: bs, [] => fun _ h => by simp [charListLe] at h
  | a :: as, b :: bs, c :: cs => by
    intro h1 h2
    by_cases hab : a < b
    · by_cases hbc : b < c
      · simp [charListLe, lt_trans hab hbc]
      · by_cases hcb : c < b
        · simp [charListLe, hbc, hcb] at h2
        · have hbc' : b = c := le_antisymm (not_lt.mp hcb) (not_lt.mp hbc)
          simp [charListLe, hbc' ▸ hab]
    · by_cases hba : b < a
      · simp [charListLe, hab, hba] at h1
      · have hab' : a = b := le_antisymm (not_lt.mp hba) (not_lt.mp hab)
        subst hab'
        by_cases hbc : a < c
        · simp [charListLe, hbc]
        · by_cases hcb : c < a
          · simp [charListLe, hbc, hcb] at h2
          · simp only [charListLe, lt_irrefl, if_false, if_neg hbc, if_neg hcb] at h1 h2 ⊢
            exact charListLe_trans as bs cs h1 h2

lemma hostLe_refl (a : ℚ × String × HostInfo) : hostLe a a :=
  Or.inr ⟨rfl, charListLe_refl _⟩

instance : IsTotal (ℚ × String × HostInfo) hostLe where
  total a b := by
    rcases lt_trichotomy a.1 b.1 with h | h | h
    · exact Or.inl (Or.inl h)
    · rcases charListLe_total a.2.1.data b.2.1.data with ht | ht
      · exact Or.inl (Or.inr ⟨h, ht⟩)
      · exact Or.inr (Or.inr ⟨h.symm, ht⟩)
    · exact Or.inr (Or.inl h)

instance : IsTrans (ℚ × String × HostInfo) hostLe where
  trans a b c hab hbc := by
    rcases hab with h1 | ⟨he1, hs1⟩
    · rcases hbc with h2 | ⟨he2, _⟩
      · exact Or.inl (lt_trans h1 h2)
      · exact Or.inl (he2 ▸ h1)
    · rcases hbc with h2 | ⟨he2, hs2⟩
      · exact Or.inl (he1 ▸ h2)
      · exact Or.inr ⟨he1.trans he2, charListLe_trans _ _ _ hs1 hs2⟩

lemma insertionSort_head_min {l : List (ℚ × String × HostInfo)} {p : ℚ × String × HostInfo}
    {rest : List (ℚ × String × HostInfo)}
    (h : List.insertionSort hostLe l = p :: rest) :
    p ∈ l ∧ ∀ q ∈ l, hostLe p q := by
  have hperm := List.perm_insertionSort hostLe l
  constructor
  · exact hperm.mem_iff.mp (h ▸ List.mem_cons_self p rest)
  · intro q hq
    have hq' : q ∈ p :: rest := h ▸ hperm.mem_iff.mpr hq
    rcases List.mem_cons.mp hq' with rfl | hq'
    · exact hostLe_refl _
    · have hsorted := List.sorted_insertionSort hostLe l
      rw [h] at hsorted
      exact List.rel_of_sorted_cons hsorted q hq'

lemma insertionSort_ne_nil {l : List (ℚ × String × HostInfo)} (h : l ≠ []) :
    List.insertionSort hostLe l ≠ [] := by
  intro hc
  have := List.length_insertionSort hostLe l
  rw [hc] at this
  exact h (List.eq_nil_of_length_eq_zero this.symm)

lemma mem_zip_getElem {α β : Type _} {l1 : List α} {l2 : List β} {x : α × β}
    (h : x ∈ l1.zip l2) :
    ∃ i, ∃ h1 : i < l1.length, ∃ h2 : i < l2.length, l1[i] = x.1 ∧ l2[i] = x.2 := by
  rcases List.mem_iff_getElem.mp h with ⟨i, hi, hx⟩
  have hlen : (l1.zip l2).length = min l1.length l2.length := List.length_zip l1 l2
  rw [hlen] at hi
  have h1 : i < l1.length := lt_of_lt_of_le hi (min_le_left _ _)
  have h2 : i < l2.length := lt_of_lt_of_le hi (min_le_right _ _)
  refine ⟨i, h1, h2, ?_, ?_⟩
  · rw [← hx, List.getElem_zip]
  · rw [← hx, List.getElem_zip]

lemma getElem_mem_zip {α β : Type _} {l1 : List α} {l2 : List β} {i : Nat}
    (h1 : i < l1.length) (h2 : i < l2.length) :
    (l1[i], l2[i]) ∈ l1.zip l2 := by
  have hi : i < (l1.zip l2).length := by
    rw [List.length_zip]
    exact lt_min h1 h2
  have hg : (l1.zip l2)[i] = (l1[i], l2[i]) := List.getElem_zip
  exact hg ▸ List.getElem_mem hi

end SortLemmas

section StageLemmas

variable {weighted_fns : List (ℚ × CostFn)} {host_list : List (String × HostInfo)}
variable {options : Options}

lemma buildScores_eq :
    buildScores weighted_fns host_list options
      = weighted_fns.map fun wf => rawRow wf host_list options := rfl

lemma rawRow_ne_nil {wf : ℚ × CostFn} (h : host_list ≠ []) :
    rawRow wf host_list options ≠ [] := by
  simp [rawRow, h]

lemma pyMin_eq_ok {l : List ℚ} (h : l ≠ []) : pyMin l = .ok (listMin l) := by
  cases l with
  | nil => exact absurd rfl h
  | cons x xs => rfl

lemma pyMax_eq_ok {l : List ℚ} (h : l ≠ []) : pyMax l = .ok (listMax l) := by
  cases l with
  | nil => exact absurd rfl h
  | cons x xs => rfl

lemma zip_self_map {α β : Type _} (g : α → β) :
    ∀ (l : List α), l.zip (l.map g) = l.map fun a => (a, g a)
  | [] => rfl
  | x :: xs => by simp [zip_self_map g xs]

lemma map_zip_map {α β γ : Type _} (f : α → β) (g : α → γ) :
    ∀ (l : List α), (l.map f).zip (l.map g) = l.map fun a => (f a, g a)
  | [] => rfl
  | x :: xs => by simp [map_zip_map f g xs]

lemma adjustScore_ok_of_ne {w mn mx s : ℚ} (h : mx ≠ mn) :
    adjustScore w mn mx s = .ok (w * (s - mn) / (mx - mn)) :=
  if_neg (sub_ne_zero.mpr h)

lemma adjustScore_err_of_eq {w mn mx s : ℚ} (h : mx = mn) :
    adjustScore w mn mx s = .error .zeroDivisionError :=
  if_pos (sub_eq_zero.mpr h)

lemma adjustedScores_eq (h : host_list ≠ []) :
    adjustedScores weighted_fns host_list options
      = mapExcept (fun wf =>
          mapExcept
            (adjustScore wf.1 (rowMin wf host_list options) (rowMax wf host_list options))
            (rawRow wf host_list options))
          weighted_fns := by
  have hmins : mapExcept pyMin (buildScores weighted_fns host_list options)
      = .ok (weighted_fns.map fun wf => rowMin wf host_list options) := by
    rw [buildScores_eq, mapExcept_map]
    exact mapExcept_congr_ok fun wf _ => pyMin_eq_ok (rawRow_ne_nil h)
  have hmaxes : mapExcept pyMax (buildScores weighted_fns host_list options)
      = .ok (weighted_fns.map fun wf => rowMax wf host_list options) := by
    rw [buildScores_eq, mapExcept_map]
    exact mapExcept_congr_ok fun wf _ => pyMax_eq_ok (rawRow_ne_nil h)
  have hz1 : weighted_fns.zip (buildScores weighted_fns host_list options)
      = weighted_fns.map fun wf => (wf, rawRow wf host_list options) := by
    rw [buildScores_eq, zip_self_map]
  have hz2 : (weighted_fns.map fun wf => rowMax wf host_list options).zip
        (weighted_fns.map fun wf => (wf, rawRow wf host_list options))
      = weighted_fns.map fun wf =>
          (rowMax wf host_list options, wf, rawRow wf host_list options) :=
    map_zip_map _ _ _
  have hz3 : (weighted_fns.map fun wf => rowMin wf host_list options).zip
        (weighted_fns.map fun wf =>
          (rowMax wf host_list options, wf, rawRow wf host_list options))
      = weighted_fns.map fun wf =>
          (rowMin wf host_list options, rowMax wf host_list options, wf,
            rawRow wf host_list options) :=
    map_zip_map _ _ _
  simp only [adjustedScores, hmins, hmaxes, ok_bind, hz1, hz2, hz3, mapExcept_map]

lemma adjustedScores_ok (h : host_list ≠ [])
    (hnt : ∀ wf ∈ weighted_fns,
      rowMax wf host_list options ≠ rowMin wf host_list options) :
    adjustedScores weighted_fns host_list options
      = .ok (weighted_fns.map fun wf => adjRow wf host_list options) := by
  rw [adjustedScores_eq h]
  refine mapExcept_congr_ok fun wf hwf => ?_
  exact mapExcept_congr_ok fun s _ => adjustScore_ok_of_ne (hnt wf hwf)

lemma adjustedScores_nil_fns :
    adjustedScores ([] : List (ℚ × CostFn)) host_list options = .ok [] := rfl

lemma adjustedScores_nil_hosts (h : weighted_fns ≠ []) :
    adjustedScores weighted_fns [] options = .error .valueError := by
  cases weighted_fns with
  | nil => exact absurd rfl h
  | cons wf rest =>
    simp [adjustedScores, buildScores, rawRow, mapExcept, pyMin, error_bind]

lemma adjustedScores_error_of_tie (h : host_list ≠ [])
    (htie : ∃ wf ∈ weighted_fns,
      rowMax wf host_list options = rowMin wf host_list options) :
    ∃ e, adjustedScores weighted_fns host_list options = .error e := by
  rcases htie with ⟨wf, hwf, htie⟩
  apply not_ok_exists_error
  rintro ⟨rows, hrows⟩
  rw [adjustedScores_eq h] at hrows
  have hall := mapExcept_ok_iff.mp ⟨rows, hrows⟩ wf hwf
  rcases hall with ⟨arow, harow⟩
  have hmem := mapExcept_ok_iff.mp ⟨arow, harow⟩
  rcases List.exists_mem_of_ne_nil _
    (rawRow_ne_nil h : rawRow wf host_list options ≠ []) with ⟨s, hs⟩
  rcases hmem s hs with ⟨y, hy⟩
  rw [adjustScore_err_of_eq htie] at hy
  exact Except.noConfusion hy

lemma finalScores_of_adjusted_ok {rows : List (List ℚ)}
    (hadj : adjustedScores weighted_fns host_list options = .ok rows) :
    finalScores weighted_fns host_list options
      = .ok (sumColumns host_list.length rows) := by
  simp [finalScores, hadj, ok_bind]

lemma finalScores_of_adjusted_error {e : PyErr}
    (hadj : adjustedScores weighted_fns host_list options = .error e) :
    finalScores weighted_fns host_list options = .error e := by
  simp [finalScores, hadj, error_bind]

lemma finalScores_ok_inv {fs : List ℚ}
    (h : finalScores weighted_fns host_list options = .ok fs) :
    ∃ rows, adjustedScores weighted_fns host_list options = .ok rows ∧
      fs = sumColumns host_list.length rows := by
  simp only [finalScores, bind_eq_ok] at h
  rcases h with ⟨rows, hrows, hok⟩
  exact ⟨rows, hrows, (Except.ok.inj hok).symm⟩

lemma weighted_sum_of_sorted_cons {fs : List ℚ} {p : ℚ × String × HostInfo}
    {rest : List (ℚ × String × HostInfo)}
    (hfs : finalScores weighted_fns host_list options = .ok fs)
    (hsorted : List.insertionSort hostLe (fs.zip host_list) = p :: rest) :
    weighted_sum weighted_fns host_list options
      = .ok ⟨p.1, some p.2.1, none, none, some p.2.2⟩ := by
  obtain ⟨w, n, hi⟩ := p
  simp [weighted_sum, hfs, ok_bind, hsorted]

lemma weighted_sum_error_of_finalScores {e : PyErr}
    (hfs : finalScores weighted_fns host_list options = .error e) :
    weighted_sum weighted_fns host_list options = .error e := by
  simp [weighted_sum, hfs, error_bind]

lemma weighted_sum_indexError_of_nil {fs : List ℚ}
    (hfs : finalScores weighted_fns host_list options = .ok fs)
    (hz : fs.zip host_list = []) :
    weighted_sum weighted_fns host_list options = .error .indexError := by
  simp [weighted_sum, hfs, ok_bind, hz]

lemma weighted_sum_ok_inv {wh : WeightedHost}
    (h : weighted_sum weighted_fns host_list options = .ok wh) :
    ∃ fs p rest, finalScores weighted_fns host_list options = .ok fs ∧
      List.insertionSort hostLe (fs.zip host_list) = p :: rest ∧
      wh = ⟨p.1, some p.2.1, none, none, some p.2.2⟩ := by
  simp only [weighted_sum, bind_eq_ok] at h
  rcases h with ⟨fs, hfs, hmatch⟩
  cases hsorted : List.insertionSort hostLe (fs.zip host_list) with
  | nil =>
    rw [hsorted] at hmatch
    exact Except.noConfusion hmatch
  | cons p rest =>
    obtain ⟨w, n, hi⟩ := p
    rw [hsorted] at hmatch
    refine ⟨fs, (w, n, hi), rest, hfs, hsorted, ?_⟩
    exact (Except.ok.inj hmatch).symm

end StageLemmas

section SumLemmas

lemma mem_zipWith {α β γ : Type _} {f : α → β → γ} :
    ∀ {l1 : List α} {l2 : List β} {x : γ}, x ∈ List.zipWith f l1 l2 →
      ∃ a ∈ l1, ∃ b ∈ l2, x = f a b := by
  intro l1
  induction l1 with
  | nil => intro l2 x hx; simp [List.zipWith] at hx
  | cons a as ih =>
    intro l2 x hx
    cases l2 with
    | nil => simp [List.zipWith] at hx
    | cons b bs =>
      rcases List.mem_cons.mp hx with rfl | hx
      · exact ⟨a, List.mem_cons_self _ _, b, List.mem_cons_self _ _, rfl⟩
      · rcases ih hx with ⟨a', ha', b', hb', hx'⟩
        exact ⟨a', List.mem_cons_of_mem _ ha', b', List.mem_cons_of_mem _ hb', hx'⟩

lemma foldl_zipWith_length :
    ∀ (rows : List (List ℚ)) (acc : List ℚ),
      (∀ row ∈ rows, row.length = acc.length) →
      (rows.foldl (fun acc row => List.zipWith (· + ·) acc row) acc).length = acc.length
  | [], acc, _ => rfl
  | r :: rs, acc, h => by
    have hlen : (List.zipWith (· + ·) acc r).length = acc.length := by
      rw [List.length_zipWith, h r (List.mem_cons_self _ _), min_self]
    rw [List.foldl_cons,
      foldl_zipWith_length rs _ (fun row hr => by
        rw [hlen]; exact h row (List.mem_cons_of_mem _ hr)),
      hlen]

lemma sumColumns_length {rows : List (List ℚ)} {n : Nat}
    (h : ∀ row ∈ rows, row.length = n) : (sumColumns n rows).length = n := by
  have := foldl_zipWith_length rows (List.replicate n 0)
    (fun row hr => by rw [List.length_replicate]; exact h row hr)
  rw [sumColumns, this, List.length_replicate]

lemma foldl_zipWith_bounds :
    ∀ (rows : List (List ℚ)) (bs : List ℚ) (acc : List ℚ) (A : ℚ),
      List.Forall₂ (fun row b => row.length = acc.length ∧ ∀ x ∈ row, 0 ≤ x ∧ x ≤ b) rows bs →
      (∀ x ∈ acc, 0 ≤ x ∧ x ≤ A) →
      ∀ x ∈ rows.foldl (fun acc row => List.zipWith (· + ·) acc row) acc, 0 ≤ x ∧ x ≤ A + bs.sum
  | [], bs, acc, A, hf, hacc => by
    cases hf
    intro x hx
    rcases hacc x hx with ⟨h0, h1⟩
    simpa using ⟨h0, h1⟩
  | r :: rs, bs, acc, A, hf, hacc => by
    cases hf with
    | cons hrb hrest =>
      rename_i b bs'
      rcases hrb with ⟨hlen, hbnd⟩
      intro x hx
      have hacc' : ∀ y ∈ List.zipWith (· + ·) acc r, 0 ≤ y ∧ y ≤ A + b := by
        intro y hy
        rcases mem_zipWith hy with ⟨u, hu, v, hv, rfl⟩
        rcases hacc u hu with ⟨hu0, hu1⟩
        rcases hbnd v hv with ⟨hv0, hv1⟩
        exact ⟨add_nonneg hu0 hv0, add_le_add hu1 hv1⟩
      have hlen' : (List.zipWith (· + ·) acc r).length = acc.length := by
        rw [List.length_zipWith, hlen, min_self]
      have hrest' : List.Forall₂
          (fun row c => row.length = (List.zipWith (· + ·) acc r).length ∧
            ∀ y ∈ row, 0 ≤ y ∧ y ≤ c) rs bs' := by
        refine hrest.imp fun row c hrc => ?_
        rw [hlen']
        exact hrc
      have := foldl_zipWith_bounds rs bs' (List.zipWith (· + ·) acc r) (A + b) hrest' hacc' x
        (by simpa using hx)
      rcases this with ⟨h0, h1⟩
      refine ⟨h0, ?_⟩
      calc x ≤ A + b + bs'.sum := h1
        _ = A + (b :: bs').sum := by rw [List.sum_cons]; ring

lemma forall₂_map_map {α β γ : Type _} {P : β → γ → Prop} {f : α → β} {g : α → γ} :
    ∀ {l : List α}, (∀ a ∈ l, P (f a) (g a)) → List.Forall₂ P (l.map f) (l.map g)
  | [], _ => List.Forall₂.nil
  | x :: xs, h =>
    List.Forall₂.cons (h x (List.mem_cons_self _ _))
      (forall₂_map_map fun a ha => h a (List.mem_cons_of_mem _ ha))

end SumLemmas

section TieLemmas

variable {weighted_fns : List (ℚ × CostFn)} {host_list : List (String × HostInfo)}
variable {options : Options} {wf : ℚ × CostFn}

lemma rowMin_le {s : ℚ} (h : host_list ≠ []) (hs : s ∈ rawRow wf host_list options) :
    rowMin wf host_list options ≤ s :=
  listMin_le (rawRow_ne_nil h) s hs

lemma le_rowMax {s : ℚ} (h : host_list ≠ []) (hs : s ∈ rawRow wf host_list options) :
    s ≤ rowMax wf host_list options :=
  le_listMax (rawRow_ne_nil h) s hs

lemma rowMin_le_rowMax (h : host_list ≠ []) :
    rowMin wf host_list options ≤ rowMax wf host_list options :=
  rowMin_le h (listMax_mem (rawRow_ne_nil h))

lemma rowMin_eq_rowMax_iff (h : host_list ≠ []) :
    rowMin wf host_list options = rowMax wf host_list options ↔
      rowAllEqual wf host_list options := by
  rw [rowMin, rowMax, listMin_eq_listMax_iff (rawRow_ne_nil h)]
  constructor
  · intro hall a ha b hb
    exact hall _ (List.mem_map_of_mem _ ha) _ (List.mem_map_of_mem _ hb)
  · intro hall x hx y hy
    rcases List.mem_map.mp hx with ⟨a, ha, rfl⟩
    rcases List.mem_map.mp hy with ⟨b, hb, rfl⟩
    exact hall a ha b hb

end TieLemmas

section LengthLemmas

variable {weighted_fns : List (ℚ × CostFn)} {host_list : List (String × HostInfo)}
variable {options : Options} {wf : ℚ × CostFn}

lemma rawRow_length : (rawRow wf host_list options).length = host_list.length := by
  simp [rawRow]

lemma adjRow_length : (adjRow wf host_list options).length = host_list.length := by
  simp [adjRow, rawRow]

lemma zip_ne_nil_of_length {fs : List ℚ} (hlen : fs.length = host_list.length)
    (h : host_list ≠ []) : fs.zip host_list ≠ [] := by
  intro hc
  apply h
  have hz : (fs.zip host_list).length = min fs.length host_list.length :=
    List.length_zip fs host_list
  rw [hc, hlen, min_self] at hz
  exact List.eq_nil_of_length_eq_zero hz.symm

end LengthLemmas

section ScaleLemmas

variable {weighted_fns : List (ℚ × CostFn)} {host_list : List (String × HostInfo)}
variable {options : Options} {c : ℚ}

lemma adjustScore_scale {w mn mx s : ℚ} (c : ℚ) :
    adjustScore (c * w) mn mx s = (adjustScore w mn mx s).map (fun q => c * q) := by
  by_cases h : mx - mn = 0
  · rw [adjustScore, if_pos h, adjustScore, if_pos h, map_err]
  · rw [adjustScore, if_neg h, adjustScore, if_neg h, map_ok]
    congr 1
    ring

lemma zip_map_fst {α β γ : Type _} (f : α → γ) :
    ∀ (l : List α) (l2 : List β),
      (l.map f).zip l2 = (l.zip l2).map fun p => (f p.1, p.2)
  | [], _ => rfl
  | _ :: _, [] => rfl
  | x :: xs, y :: ys => by simp [zip_map_fst f xs ys]

lemma zipWith_add_map_mul (c : ℚ) :
    ∀ (l1 l2 : List ℚ),
      List.zipWith (· + ·) (l1.map fun q => c * q) (l2.map fun q => c * q)
        = (List.zipWith (· + ·) l1 l2).map fun q => c * q
  | [], _ => rfl
  | _ :: _, [] => rfl
  | x :: xs, y :: ys => by
    simp [zipWith_add_map_mul c xs ys, mul_add]

lemma foldl_zipWith_scale (c : ℚ) :
    ∀ (rows : List (List ℚ)) (acc : List ℚ),
      (rows.map (List.map fun q => c * q)).foldl
          (fun acc row => List.zipWith (· + ·) acc row) (acc.map fun q => c * q)
        = (rows.foldl (fun acc row => List.zipWith (· + ·) acc row) acc).map fun q => c * q
  | [], acc => rfl
  | r :: rs, acc => by
    simp only [List.map_cons, List.foldl_cons, zipWith_add_map_mul c acc r]
    exact foldl_zipWith_scale c rs _

lemma sumColumns_scale (c : ℚ) (n : Nat) (rows : List (List ℚ)) :
    sumColumns n (rows.map (List.map fun q => c * q))
      = (sumColumns n rows).map fun q => c * q := by
  have hrep : (List.replicate n (0 : ℚ)).map (fun q => c * q) = List.replicate n 0 := by
    rw [List.map_replicate, mul_zero]
  rw [sumColumns, sumColumns]
  conv_lhs => rw [← hrep]
  exact foldl_zipWith_scale c rows _

lemma mapExcept_comp_scale {α β : Type _} {f : α → Except PyErr β} {σ : α → α} {g : β → β}
    (hpt : ∀ x, f (σ x) = (f x).map g) :
    ∀ l : List α, mapExcept f (l.map σ) = (mapExcept f l).map (List.map g)
  | [] => rfl
  | x :: xs => by
    rw [List.map_cons]
    cases hx : f x with
    | error e => simp [mapExcept, hpt x, hx, map_err, error_bind]
    | ok y =>
      cases hxs : mapExcept f xs with
      | error e =>
        simp [mapExcept, hpt x, hx, map_ok, ok_bind, mapExcept_comp_scale hpt xs, hxs,
          map_err, error_bind]
      | ok ys =>
        simp [mapExcept, hpt x, hx, map_ok, ok_bind, mapExcept_comp_scale hpt xs, hxs]

lemma adjustedScores_scale (h : host_list ≠ []) (c : ℚ) :
    adjustedScores (weighted_fns.map fun wf => (c * wf.1, wf.2)) host_list options
      = (adjustedScores weighted_fns host_list options).map
          (List.map (List.map fun q => c * q)) := by
  rw [adjustedScores_eq h, adjustedScores_eq h]
  apply mapExcept_comp_scale
  intro wf
  show mapExcept
      (adjustScore (c * wf.1) (rowMin wf host_list options) (rowMax wf host_list options))
      (rawRow wf host_list options)
    = (mapExcept
        (adjustScore wf.1 (rowMin wf host_list options) (rowMax wf host_list options))
        (rawRow wf host_list options)).map (List.map fun q => c * q)
  have hfun : adjustScore (c * wf.1) (rowMin wf host_list options)
      (rowMax wf host_list options)
      = fun s => (adjustScore wf.1 (rowMin wf host_list options)
          (rowMax wf host_list options) s).map (fun q => c * q) := by
    funext s
    exact adjustScore_scale c
  rw [hfun]
  exact mapExcept_map_except _

lemma finalScores_scale (c : ℚ) :
    finalScores (weighted_fns.map fun wf => (c * wf.1, wf.2)) host_list options
      = (finalScores weighted_fns host_list options).map (List.map fun q => c * q) := by
  by_cases h : host_list = []
  · subst h
    cases weighted_fns with
    | nil => rfl
    | cons wf rest =>
      have h1 : adjustedScores ((wf :: rest).map fun wf => ((c * wf.1, wf.2) : ℚ × CostFn))
          [] options = .error .valueError :=
        adjustedScores_nil_hosts (by simp)
      have h2 : adjustedScores (wf :: rest) ([] : List (String × HostInfo)) options
          = .error .valueError := adjustedScores_nil_hosts (by simp)
      rw [finalScores_of_adjusted_error h1, finalScores_of_adjusted_error h2, map_err]
  · cases hadj : adjustedScores weighted_fns host_list options with
    | error e =>
      have h1 : adjustedScores (weighted_fns.map fun wf => (c * wf.1, wf.2))
          host_list options = .error e := by
        rw [adjustedScores_scale h c, hadj, map_err]
      rw [finalScores_of_adjusted_error h1, finalScores_of_adjusted_error hadj, map_err]
    | ok rows =>
      have h1 : adjustedScores (weighted_fns.map fun wf => (c * wf.1, wf.2))
          host_list options = .ok (rows.map (List.map fun q => c * q)) := by
        rw [adjustedScores_scale h c, hadj, map_ok]
      rw [finalScores_of_adjusted_ok h1, finalScores_of_adjusted_ok hadj, map_ok,
        sumColumns_scale]

lemma hostLe_scale (hc : 0 < c) (a b : ℚ × String × HostInfo) :
    hostLe a b ↔ hostLe (c * a.1, a.2) (c * b.1, b.2) := by
  show (a.1 < b.1 ∨ (a.1 = b.1 ∧ charListLe a.2.1.data b.2.1.data = true)) ↔
    (c * a.1 < c * b.1 ∨ (c * a.1 = c * b.1 ∧ charListLe a.2.1.data b.2.1.data = true))
  rw [mul_lt_mul_left hc, mul_right_inj' (ne_of_gt hc)]

lemma weighted_sum_scale (c : ℚ) (hc : 0 < c) :
    weighted_sum (weighted_fns.map fun wf => (c * wf.1, wf.2)) host_list options
      = (weighted_sum weighted_fns host_list options).map
          fun wh => ⟨c * wh.weight, wh.host, wh.blob, wh.zone, wh.hostinfo⟩ := by
  cases hfs : finalScores weighted_fns host_list options with
  | error e =>
    have h1 : finalScores (weighted_fns.map fun wf => (c * wf.1, wf.2)) host_list options
        = .error e := by rw [finalScores_scale c, hfs, map_err]
    rw [weighted_sum_error_of_finalScores h1, weighted_sum_error_of_finalScores hfs, map_err]
  | ok fs =>
    have h1 : finalScores (weighted_fns.map fun wf => (c * wf.1, wf.2)) host_list options
        = .ok (fs.map fun q => c * q) := by rw [finalScores_scale c, hfs, map_ok]
    have hzip : (fs.map fun q => c * q).zip host_list
        = (fs.zip host_list).map fun p => (c * p.1, p.2) := zip_map_fst _ _ _
    have hsort : ((fs.zip host_list).map fun p => (c * p.1, p.2)).insertionSort hostLe
        = ((fs.zip host_list).insertionSort hostLe).map fun p => (c * p.1, p.2) :=
      (List.map_insertionSort hostLe hostLe _ _ fun a _ b _ => hostLe_scale hc a b).symm
    cases hsorted : List.insertionSort hostLe (fs.zip host_list) with
    | nil =>
      have hznil : fs.zip host_list = [] := by
        have hlen := List.length_insertionSort hostLe (fs.zip host_list)
        rw [hsorted] at hlen
        exact List.eq_nil_of_length_eq_zero hlen.symm
      have hznil' : (fs.map fun q => c * q).zip host_list = [] := by
        rw [hzip, hznil]
        rfl
      rw [weighted_sum_indexError_of_nil h1 hznil', weighted_sum_indexError_of_nil hfs hznil,
        map_err]
    | cons p rest =>
      obtain ⟨w, n, hi⟩ := p
      have hscaled : List.insertionSort hostLe ((fs.map fun q => c * q).zip host_list)
          = (c * w, n, hi) :: rest.map fun p => (c * p.1, p.2) := by
        rw [hzip, hsort, hsorted]
        rfl
      rw [weighted_sum_of_sorted_cons h1 hscaled, weighted_sum_of_sorted_cons hfs hsorted,
        map_ok]

end ScaleLemmas

section SuccessLemma

variable {weighted_fns : List (ℚ × CostFn)} {host_list : List (String × HostInfo)}
variable {options : Options}

lemma weighted_sum_success (h : host_list ≠ [])
    (hnt : ∀ wf ∈ weighted_fns, ¬ rowAllEqual wf host_list options) :
    ∃ fs p rest,
      finalScores weighted_fns host_list options = .ok fs ∧
      fs.length = host_list.length ∧
      List.insertionSort hostLe (fs.zip host_list) = p :: rest ∧
      weighted_sum weighted_fns host_list options
        = .ok ⟨p.1, some p.2.1, none, none, some p.2.2⟩ := by
  have hnt' : ∀ wf ∈ weighted_fns,
      rowMax wf host_list options ≠ rowMin wf host_list options := by
    intro wf hwf heq
    exact hnt wf hwf ((rowMin_eq_rowMax_iff h).mp heq.symm)
  have hfs : finalScores weighted_fns host_list options
      = .ok (sumColumns host_list.length
          (weighted_fns.map fun wf => adjRow wf host_list options)) :=
    finalScores_of_adjusted_ok (adjustedScores_ok h hnt')
  have hlen : (sumColumns host_list.length
      (weighted_fns.map fun wf => adjRow wf host_list options)).length
      = host_list.length := by
    apply sumColumns_length
    intro row hrow
    rcases List.mem_map.mp hrow with ⟨wf, _, rfl⟩
    exact adjRow_length
  have hzne := zip_ne_nil_of_length hlen h
  cases hsorted : List.insertionSort hostLe
      ((sumColumns host_list.length
        (weighted_fns.map fun wf => adjRow wf host_list options)).zip host_list) with
  | nil => exact absurd hsorted (insertionSort_ne_nil hzne)
  | cons p rest =>
    exact ⟨_, p, rest, hfs, hlen, hsorted, weighted_sum_of_sorted_cons hfs hsorted⟩

end SuccessLemma

/-! ### Concrete hosts used by the evaluation theorems -/

/-- Concrete host snapshot with 2 MB free ram. -/
def hostA : HostInfo := ⟨2, 0, 0⟩

/-- Concrete host snapshot with 1 MB free ram. -/
def hostB : HostInfo := ⟨1, 0, 0⟩

/-! ### Claim theorems -/

/-- C1: the spec claims that for a function row where max equals min (all
hosts receive the same raw cost), `weighted_sum` assigns a normalised
contribution of 0 to every host for that row and never performs an
undefined or erroring division.  The source has no guard for the tied
case: at line 137 it computes `float(score - score_min) / (score_max -
score_min)` with a zero denominator and raises `ZeroDivisionError`.  The
spec itself (section 9) flags this division-by-zero as a defect of the
source, so the claim states the intent and the code is in the wrong.
This theorem evaluates the model at such a tied input: the constant
`noop_cost_fn` scores both hosts 1, and the pass fails instead of
scoring every host 0. -/
theorem C1_tie_row_raises_zero_division :
    weighted_sum [(1, noop_cost_fn)] [("a", hostA), ("b", hostB)] []
      = .error .zeroDivisionError := by
  simp only [weighted_sum, finalScores, adjustedScores, buildScores, mapExcept, pyMin, pyMax,
    adjustScore, sumColumns, noop_cost_fn, List.map, List.zip, List.zipWith, List.foldl,
    List.replicate, bind, Except.bind]
  norm_num

/-- C2 (counterexample): the claim says `weighted_sum` fails with an
`InvalidInput` error if (and only if) the host list or the function list
is empty.  The source performs no such validation: with an empty
function list and a nonempty host list it raises nothing at all and
returns a `WeightedHost` of weight 0, so the claim's forward direction
is false at this input. -/
theorem C2_empty_fn_list_returns_ok :
    weighted_sum [] [("a", hostA)] [] = .ok ⟨0, some "a", none, none, some hostA⟩ := rfl

/-- C2 (amended): `weighted_sum` never raises an `InvalidInput` error
(no such path exists in the source).  It fails exactly when the host
list is empty (a `ValueError` from `min` of an empty row when the
function list is nonempty, an `IndexError` from `final_scores[0]` when
both lists are empty) or when some cost function gives every host the
same raw score (the `ZeroDivisionError` of C1); in particular an empty
function list with a nonempty host list succeeds. -/
theorem C2_failure_characterisation (weighted_fns : List (ℚ × CostFn))
    (host_list : List (String × HostInfo)) (options : Options) :
    (∃ e, weighted_sum weighted_fns host_list options = .error e) ↔
      (host_list = [] ∨ ∃ wf ∈ weighted_fns, rowAllEqual wf host_list options) := by
  by_cases h : host_list = []
  · subst h
    apply iff_of_true ?_ (Or.inl rfl)
    cases weighted_fns with
    | nil =>
      refine ⟨.indexError, ?_⟩
      have hfs : finalScores [] ([] : List (String × HostInfo)) options
          = .ok (sumColumns (List.length ([] : List (String × HostInfo))) []) :=
        finalScores_of_adjusted_ok adjustedScores_nil_fns
      exact weighted_sum_indexError_of_nil hfs rfl
    | cons wf rest =>
      exact ⟨.valueError, weighted_sum_error_of_finalScores
        (finalScores_of_adjusted_error (adjustedScores_nil_hosts (List.cons_ne_nil wf rest)))⟩
  · by_cases htie : ∃ wf ∈ weighted_fns, rowAllEqual wf host_list options
    · apply iff_of_true ?_ (Or.inr htie)
      rcases htie with ⟨wf, hwf, hall⟩
      have hmm : rowMax wf host_list options = rowMin wf host_list options :=
        ((rowMin_eq_rowMax_iff h).mpr hall).symm
      rcases adjustedScores_error_of_tie h ⟨wf, hwf, hmm⟩ with ⟨e, he⟩
      exact ⟨e, weighted_sum_error_of_finalScores (finalScores_of_adjusted_error he)⟩
    · apply iff_of_false ?_ (fun hor => hor.elim h htie)
      have hnt : ∀ wf ∈ weighted_fns, ¬ rowAllEqual wf host_list options :=
        fun wf hwf hall => htie ⟨wf, hwf, hall⟩
      rcases weighted_sum_success h hnt with ⟨fs, p, rest, _, _, _, hok⟩
      rintro ⟨e, he⟩
      rw [hok] at he
      exact Except.noConfusion he

/-- C2 (witness): the characterisation applied at a concrete input with
a tied row: the error predicted by the right-hand side occurs. -/
theorem C2_failure_characterisation_witness :
    ∃ e, weighted_sum [(2, noop_cost_fn)] [("a", hostA), ("b", hostB)] [] = .error e :=
  (C2_failure_characterisation [(2, noop_cost_fn)] [("a", hostA), ("b", hostB)] []).mpr
    (Or.inr ⟨(2, noop_cost_fn), List.mem_cons_self _ _, fun _ _ _ _ => rfl⟩)

/-- C5 (counterexample): the claim says that for every nonempty host
list and nonempty function list `weighted_sum` returns exactly one
`WeightedHost`.  With the nonempty inputs below (one host, one constant
function) the row ties, so the code raises `ZeroDivisionError` and
returns nothing. -/
theorem C5_nonempty_inputs_error :
    weighted_sum [(1, noop_cost_fn)] [("a", hostA)] [] = .error .zeroDivisionError := by
  simp only [weighted_sum, finalScores, adjustedScores, buildScores, mapExcept, pyMin, pyMax,
    adjustScore, sumColumns, noop_cost_fn, List.map, List.zip, List.zipWith, List.foldl,
    List.replicate, bind, Except.bind]
  norm_num

/-- C5 (amended): for every nonempty host list and nonempty function
list in which no function row has all raw scores equal, `weighted_sum`
returns exactly one `WeightedHost`, whose host is drawn from the input
host list and whose weight equals the minimum aggregate score over all
hosts. -/
theorem C5_min_aggregate_weight (weighted_fns : List (ℚ × CostFn))
    (host_list : List (String × HostInfo)) (options : Options)
    (hhosts : host_list ≠ []) (hfns : weighted_fns ≠ [])
    (hnt : ∀ wf ∈ weighted_fns, ¬ rowAllEqual wf host_list options) :
    ∃ wh fs, weighted_sum weighted_fns host_list options = .ok wh ∧
      finalScores weighted_fns host_list options = .ok fs ∧
      (∃ pr ∈ host_list, wh.host = some pr.1 ∧ wh.hostinfo = some pr.2) ∧
      wh.weight ∈ fs ∧ ∀ x ∈ fs, wh.weight ≤ x := by
  rcases weighted_sum_success hhosts hnt with ⟨fs, p, rest, hfs, hlen, hsorted, hok⟩
  rcases insertionSort_head_min hsorted with ⟨hpmem, hmin⟩
  rcases mem_zip_getElem hpmem with ⟨i, h1, h2, hfi, hhi⟩
  refine ⟨⟨p.1, some p.2.1, none, none, some p.2.2⟩, fs, hok, hfs, ?_, ?_, ?_⟩
  · exact ⟨host_list[i], List.getElem_mem h2, by rw [hhi], by rw [hhi]⟩
  · show p.1 ∈ fs
    rw [← hfi]
    exact List.getElem_mem h1
  · intro x hx
    rcases List.mem_iff_getElem.mp hx with ⟨j, hj, rfl⟩
    have hj2 : j < host_list.length := hlen ▸ hj
    have hq := hmin _ (getElem_mem_zip hj hj2)
    show p.1 ≤ fs[j]
    rcases hq with hlt | ⟨heq, _⟩
    · exact le_of_lt hlt
    · exact le_of_eq heq

/-- C5 (witness): the amended claim applied at a concrete input: two
hosts with different free ram under the fill-first cost function. -/
theorem C5_min_aggregate_weight_witness :
    [("a", hostA), ("b", hostB)] ≠ ([] : List (String × HostInfo)) ∧
    [((1 : ℚ), compute_fill_first_cost_fn)] ≠ [] ∧
    (∃ wh fs,
      weighted_sum [(1, compute_fill_first_cost_fn)] [("a", hostA), ("b", hostB)] [] = .ok wh ∧
      finalScores [(1, compute_fill_first_cost_fn)] [("a", hostA), ("b", hostB)] [] = .ok fs ∧
      (∃ pr ∈ [("a", hostA), ("b", hostB)], wh.host = some pr.1 ∧ wh.hostinfo = some pr.2) ∧
      wh.weight ∈ fs ∧ ∀ x ∈ fs, wh.weight ≤ x) := by
  refine ⟨by simp, by simp, ?_⟩
  apply C5_min_aggregate_weight [(1, compute_fill_first_cost_fn)]
    [("a", hostA), ("b", hostB)] [] (by simp) (by simp)
  intro wf hwf
  simp only [List.mem_singleton] at hwf
  subst hwf
  intro hall
  have h2 := hall ("a", hostA) (by simp) ("b", hostB) (by simp)
  simp only [compute_fill_first_cost_fn, hostA, hostB] at h2
  norm_num at h2

/-- C3 (counterexample): the claim says ties on aggregate weight are
broken by original host-list order, the earlier host winning.  Here both
hosts receive aggregate score 1 (a tie), yet the host listed second,
`a`, is selected, because `sorted(final_scores)` compares the host
tuples `(host, hostinfo)` when the scores are equal, preferring the
lexicographically smaller host name. -/
theorem C3_tie_prefers_smaller_name :
    finalScores [(1, compute_fill_first_cost_fn), (1, compute_even_fill_ram_cost_fn)]
        [("b", hostB), ("a", hostA)] [] = .ok [1, 1] ∧
    weighted_sum [(1, compute_fill_first_cost_fn), (1, compute_even_fill_ram_cost_fn)]
        [("b", hostB), ("a", hostA)] [] = .ok ⟨1, some "a", none, none, some hostA⟩ := by
  constructor
  · simp only [finalScores, adjustedScores, buildScores, mapExcept, pyMin, pyMax, adjustScore,
      sumColumns, compute_fill_first_cost_fn, compute_even_fill_ram_cost_fn, hostA, hostB,
      List.map, List.zip, List.zipWith, List.foldl, List.replicate, bind, Except.bind]
    norm_num
  · simp only [weighted_sum, finalScores, adjustedScores, buildScores, mapExcept, pyMin, pyMax,
      adjustScore, sumColumns, compute_fill_first_cost_fn, compute_even_fill_ram_cost_fn,
      hostA, hostB, List.map, List.zip, List.zipWith, List.foldl, List.replicate, bind,
      Except.bind]
    norm_num [List.insertionSort, List.orderedInsert, hostLe, charListLe]
    rw [if_neg (by decide)]

/-- C3 (amended): the final sort is on the pairs `(aggregate, (host,
hostinfo))`, so the winner always has a minimal aggregate score, and
among hosts tied at that minimal score the winner's host name is
byte-wise lexicographically least — ties are broken by host name, not by
original list position. -/
theorem C3_tie_broken_lexicographically (weighted_fns : List (ℚ × CostFn))
    (host_list : List (String × HostInfo)) (options : Options) (wh : WeightedHost)
    (fs : List ℚ)
    (hok : weighted_sum weighted_fns host_list options = .ok wh)
    (hfs : finalScores weighted_fns host_list options = .ok fs) :
    ∃ i, ∃ h1 : i < fs.length, ∃ h2 : i < host_list.length,
      wh.weight = fs[i] ∧ wh.host = some host_list[i].1 ∧
      wh.hostinfo = some host_list[i].2 ∧
      ∀ j, ∀ hj1 : j < fs.length, ∀ hj2 : j < host_list.length,
        wh.weight < fs[j] ∨ (wh.weight = fs[j] ∧
          charListLe host_list[i].1.data host_list[j].1.data = true) := by
  rcases weighted_sum_ok_inv hok with ⟨fs', p, rest, hfs', hsorted, hwh⟩
  rw [hfs] at hfs'
  cases Except.ok.inj hfs'
  rcases insertionSort_head_min hsorted with ⟨hpmem, hmin⟩
  rcases mem_zip_getElem hpmem with ⟨i, h1, h2, hfi, hhi⟩
  subst hwh
  refine ⟨i, h1, h2, hfi.symm, by rw [hhi], by rw [hhi], ?_⟩
  intro j hj1 hj2
  have hq := hmin _ (getElem_mem_zip hj1 hj2)
  rcases hq with hlt | ⟨heq, hname⟩
  · exact Or.inl hlt
  · refine Or.inr ⟨heq, ?_⟩
    rw [hhi]
    exact hname

/-- C3 (witness): the amended tie-breaking rule applied at the concrete
tied input of the counterexample. -/
theorem C3_tie_broken_lexicographically_witness :
    weighted_sum [(1, compute_fill_first_cost_fn), (1, compute_even_fill_ram_cost_fn)]
        [("b", hostB), ("a", hostA)] [] = .ok ⟨1, some "a", none, none, some hostA⟩ ∧
    (∃ i, ∃ h1 : i < [(1 : ℚ), 1].length,
      ∃ h2 : i < [("b", hostB), ("a", hostA)].length,
      (⟨1, some "a", none, none, some hostA⟩ : WeightedHost).weight = [(1 : ℚ), 1][i] ∧
      (⟨1, some "a", none, none, some hostA⟩ : WeightedHost).host
        = some [("b", hostB), ("a", hostA)][i].1 ∧
      (⟨1, some "a", none, none, some hostA⟩ : WeightedHost).hostinfo
        = some [("b", hostB), ("a", hostA)][i].2 ∧
      ∀ j, ∀ hj1 : j < [(1 : ℚ), 1].length,
        ∀ hj2 : j < [("b", hostB), ("a", hostA)].length,
        (⟨1, some "a", none, none, some hostA⟩ : WeightedHost).weight < [(1 : ℚ), 1][j] ∨
        ((⟨1, some "a", none, none, some hostA⟩ : WeightedHost).weight = [(1 : ℚ), 1][j] ∧
          charListLe [("b", hostB), ("a", hostA)][i].1.data
            [("b", hostB), ("a", hostA)][j].1.data = true)) := by
  constructor
  · simp only [weighted_sum, finalScores, adjustedScores, buildScores, mapExcept, pyMin, pyMax,
      adjustScore, sumColumns, compute_fill_first_cost_fn, compute_even_fill_ram_cost_fn,
      hostA, hostB, List.map, List.zip, List.zipWith, List.foldl, List.replicate, bind,
      Except.bind]
    norm_num [List.insertionSort, List.orderedInsert, hostLe, charListLe]
    rw [if_neg (by decide)]
  · apply C3_tie_broken_lexicographically
      [(1, compute_fill_first_cost_fn), (1, compute_even_fill_ram_cost_fn)]
      [("b", hostB), ("a", hostA)] [] ⟨1, some "a", none, none, some hostA⟩ [(1 : ℚ), 1]
    · simp only [weighted_sum, finalScores, adjustedScores, buildScores, mapExcept, pyMin,
        pyMax, adjustScore, sumColumns, compute_fill_first_cost_fn,
        compute_even_fill_ram_cost_fn, hostA, hostB, List.map, List.zip, List.zipWith,
        List.foldl, List.replicate, bind, Except.bind]
      norm_num [List.insertionSort, List.orderedInsert, hostLe, charListLe]
      rw [if_neg (by decide)]
    · simp only [finalScores, adjustedScores, buildScores, mapExcept, pyMin, pyMax,
        adjustScore, sumColumns, compute_fill_first_cost_fn, compute_even_fill_ram_cost_fn,
        hostA, hostB, List.map, List.zip, List.zipWith, List.foldl, List.replicate, bind,
        Except.bind]
      norm_num

/-- C6: for a function row whose raw scores are not all equal (max
differs from min), the minimum raw score normalises to 0 and the maximum
raw score normalises to 1 under the normalisation of line 137 (taken
with weight 1); both extreme scores are attained by some host in the
row. -/
theorem C6_normalisation_bounds (row : List ℚ) (mn mx : ℚ)
    (hmn : pyMin row = .ok mn) (hmx : pyMax row = .ok mx) (hne : mn ≠ mx) :
    mn ∈ row ∧ mx ∈ row ∧ adjustScore 1 mn mx mn = .ok 0 ∧ adjustScore 1 mn mx mx = .ok 1 := by
  have hrow : row ≠ [] := by
    intro hc
    subst hc
    exact Except.noConfusion hmn
  have hmn' : mn = listMin row := by
    rw [pyMin_eq_ok hrow] at hmn
    exact (Except.ok.inj hmn).symm
  have hmx' : mx = listMax row := by
    rw [pyMax_eq_ok hrow] at hmx
    exact (Except.ok.inj hmx).symm
  refine ⟨hmn' ▸ listMin_mem hrow, hmx' ▸ listMax_mem hrow, ?_, ?_⟩
  · rw [adjustScore_ok_of_ne (Ne.symm hne)]
    congr 1
    simp
  · rw [adjustScore_ok_of_ne (Ne.symm hne)]
    congr 1
    rw [one_mul]
    exact div_self (sub_ne_zero.mpr (Ne.symm hne))

/-- C6 (witness): the normalisation bounds applied to the concrete row
with raw scores 1 and 2. -/
theorem C6_normalisation_bounds_witness :
    pyMin [(1 : ℚ), 2] = .ok 1 ∧ pyMax [(1 : ℚ), 2] = .ok 2 ∧ (1 : ℚ) ≠ 2 ∧
    ((1 : ℚ) ∈ [(1 : ℚ), 2] ∧ (2 : ℚ) ∈ [(1 : ℚ), 2] ∧
      adjustScore 1 1 2 1 = .ok 0 ∧ adjustScore 1 1 2 2 = .ok 1) := by
  have h1 : pyMin [(1 : ℚ), 2] = .ok 1 := by
    simp only [pyMin, List.foldl]
    norm_num
  have h2 : pyMax [(1 : ℚ), 2] = .ok 2 := by
    simp only [pyMax, List.foldl]
    norm_num
  have h3 : (1 : ℚ) ≠ 2 := by norm_num
  exact ⟨h1, h2, h3, C6_normalisation_bounds [(1 : ℚ), 2] 1 2 h1 h2 h3⟩

/-- C7: multiplying every weight in the weighted-function list by a
positive constant does not change which host `weighted_sum` selects (nor
whether and how it fails). -/
theorem C7_scale_invariance (weighted_fns : List (ℚ × CostFn))
    (host_list : List (String × HostInfo)) (options : Options) (c : ℚ) (hc : 0 < c) :
    (weighted_sum (weighted_fns.map fun wf => (c * wf.1, wf.2)) host_list options).map
        WeightedHost.host
      = (weighted_sum weighted_fns host_list options).map WeightedHost.host := by
  rw [weighted_sum_scale c hc]
  cases weighted_sum weighted_fns host_list options with
  | error e => rfl
  | ok wh => rfl

/-- C7 (witness): scale invariance applied at a concrete input with the
constant 2. -/
theorem C7_scale_invariance_witness :
    (0 : ℚ) < 2 ∧
    (weighted_sum ([((1 : ℚ), compute_fill_first_cost_fn)].map fun wf => (2 * wf.1, wf.2))
        [("a", hostA), ("b", hostB)] []).map WeightedHost.host
      = (weighted_sum [((1 : ℚ), compute_fill_first_cost_fn)]
          [("a", hostA), ("b", hostB)] []).map WeightedHost.host :=
  ⟨by norm_num,
    C7_scale_invariance [((1 : ℚ), compute_fill_first_cost_fn)]
      [("a", hostA), ("b", hostB)] [] 2 (by norm_num)⟩

section LookupLemmas

lemma lookup_append {β : Type _} (k : String) :
    ∀ (l1 l2 : List (String × β)),
      (l1 ++ l2).lookup k
        = match l1.lookup k with
          | some v => some v
          | none => l2.lookup k
  | [], l2 => rfl
  | (k', v) :: l1, l2 => by
    cases hkk : (k == k') with
    | true => simp [List.lookup, hkk]
    | false => simp [List.lookup, hkk, lookup_append k l1 l2]

lemma lookup_optEntry_self (k : String) (o : Option String) :
    (optEntry k o).lookup k
      = match o with
        | some s => if s = "" then none else some (DictVal.str s)
        | none => none := by
  cases o with
  | none => rfl
  | some s =>
    by_cases hs : s = "" <;> simp [optEntry, hs, List.lookup]

lemma lookup_optEntry_ne {key k : String} (h : (key == k) = false) (o : Option String) :
    (optEntry k o).lookup key = none := by
  cases o with
  | none => rfl
  | some s =>
    by_cases hs : s = "" <;> simp [optEntry, hs, List.lookup, h]

end LookupLemmas

/-- C8: the externally serialised form of a `WeightedHost` always
includes the `weight` field with the stored aggregate, and includes the
`blob`, `host` and `zone` fields exactly when those fields are set and
non-empty; an absent (`None`) or empty-string optional field is
omitted. -/
theorem C8_to_dict_field_presence (wh : WeightedHost) :
    (wh.to_dict).lookup "weight" = some (DictVal.num wh.weight) ∧
    ((wh.to_dict).lookup "blob" ≠ none ↔ ∃ s, wh.blob = some s ∧ s ≠ "") ∧
    ((wh.to_dict).lookup "host" ≠ none ↔ ∃ s, wh.host = some s ∧ s ≠ "") ∧
    ((wh.to_dict).lookup "zone" ≠ none ↔ ∃ s, wh.zone = some s ∧ s ≠ "") := by
  obtain ⟨w, h, b, z, hi⟩ := wh
  refine ⟨by simp [WeightedHost.to_dict, List.lookup], ?_, ?_, ?_⟩
  · show ((("weight", DictVal.num w) ::
        (optEntry "blob" b ++ optEntry "host" h ++ optEntry "zone" z)).lookup "blob" ≠ none)
      ↔ _
    rw [List.append_assoc]
    simp only [List.lookup, show (("blob" : String) == "weight") = false from rfl,
      lookup_append, lookup_optEntry_self,
      lookup_optEntry_ne (show (("blob" : String) == "host") = false from rfl),
      lookup_optEntry_ne (show (("blob" : String) == "zone") = false from rfl)]
    cases b with
    | none => simp
    | some s =>
      by_cases hs : s = "" <;> simp [hs]
  · show ((("weight", DictVal.num w) ::
        (optEntry "blob" b ++ optEntry "host" h ++ optEntry "zone" z)).lookup "host" ≠ none)
      ↔ _
    rw [List.append_assoc]
    simp only [List.lookup, show (("host" : String) == "weight") = false from rfl,
      lookup_append, lookup_optEntry_self,
      lookup_optEntry_ne (show (("host" : String) == "blob") = false from rfl),
      lookup_optEntry_ne (show (("host" : String) == "zone") = false from rfl)]
    cases h with
    | none => simp
    | some s =>
      by_cases hs : s = "" <;> simp [hs]
  · show ((("weight", DictVal.num w) ::
        (optEntry "blob" b ++ optEntry "host" h ++ optEntry "zone" z)).lookup "zone" ≠ none)
      ↔ _
    rw [List.append_assoc]
    simp only [List.lookup, show (("zone" : String) == "weight") = false from rfl,
      lookup_append, lookup_optEntry_self,
      lookup_optEntry_ne (show (("zone" : String) == "blob") = false from rfl),
      lookup_optEntry_ne (show (("zone" : String) == "host") = false from rfl)]
    cases z with
    | none => simp
    | some s =>
      by_cases hs : s = "" <;> simp [hs]

/-- C9: every `WeightedHost` returned by `weighted_sum` is built at line
153 with only `weight`, `host` and the internal `hostinfo`; its `zone`
and `blob` fields are left at their `None` defaults, so its serialised
form never contains a `zone` or `blob` key. -/
theorem C9_result_has_no_zone_or_blob (weighted_fns : List (ℚ × CostFn))
    (host_list : List (String × HostInfo)) (options : Options) (wh : WeightedHost)
    (hok : weighted_sum weighted_fns host_list options = .ok wh) :
    wh.zone = none ∧ wh.blob = none ∧
    (wh.to_dict).lookup "zone" = none ∧ (wh.to_dict).lookup "blob" = none := by
  rcases weighted_sum_ok_inv hok with ⟨fs, p, rest, _, _, hwh⟩
  subst hwh
  refine ⟨rfl, rfl, ?_, ?_⟩
  · show ((("weight", DictVal.num p.1) ::
        (optEntry "blob" none ++ optEntry "host" (some p.2.1) ++ optEntry "zone" none)).lookup
        "zone") = none
    rw [List.append_assoc]
    simp only [List.lookup, show (("zone" : String) == "weight") = false from rfl,
      lookup_append, lookup_optEntry_self,
      lookup_optEntry_ne (show (("zone" : String) == "blob") = false from rfl),
      lookup_optEntry_ne (show (("zone" : String) == "host") = false from rfl)]
  · show ((("weight", DictVal.num p.1) ::
        (optEntry "blob" none ++ optEntry "host" (some p.2.1) ++ optEntry "zone" none)).lookup
        "blob") = none
    rw [List.append_assoc]
    simp only [List.lookup, show (("blob" : String) == "weight") = false from rfl,
      lookup_append, lookup_optEntry_self,
      lookup_optEntry_ne (show (("blob" : String) == "host") = false from rfl),
      lookup_optEntry_ne (show (("blob" : String) == "zone") = false from rfl)]

/-- C9 (witness): a concrete run of `weighted_sum` and the absence of
`zone` and `blob` in the winner and its serialised form. -/
theorem C9_result_has_no_zone_or_blob_witness :
    weighted_sum [(1, compute_fill_first_cost_fn)] [("a", hostA), ("b", hostB)] []
      = .ok ⟨0, some "b", none, none, some hostB⟩ ∧
    ((⟨0, some "b", none, none, some hostB⟩ : WeightedHost).zone = none ∧
      (⟨0, some "b", none, none, some hostB⟩ : WeightedHost).blob = none ∧
      ((⟨0, some "b", none, none, some hostB⟩ : WeightedHost).to_dict).lookup "zone" = none ∧
      ((⟨0, some "b", none, none, some hostB⟩ : WeightedHost).to_dict).lookup "blob"
        = none) := by
  have hok : weighted_sum [(1, compute_fill_first_cost_fn)] [("a", hostA), ("b", hostB)] []
      = .ok ⟨0, some "b", none, none, some hostB⟩ := by
    simp only [weighted_sum, finalScores, adjustedScores, buildScores, mapExcept, pyMin, pyMax,
      adjustScore, sumColumns, compute_fill_first_cost_fn, hostA, hostB, List.map, List.zip,
      List.zipWith, List.foldl, List.replicate, bind, Except.bind]
    norm_num [List.insertionSort, List.orderedInsert, hostLe, charListLe]
  exact ⟨hok, C9_result_has_no_zone_or_blob [(1, compute_fill_first_cost_fn)]
    [("a", hostA), ("b", hostB)] [] ⟨0, some "b", none, none, some hostB⟩ hok⟩

/-- C10: for a nonempty host list and any weighted-function list with
all weights non-negative and no tied row, every aggregate score produced
by the column sums of `weighted_sum` lies between 0 and the sum of the
weights, inclusive. -/
theorem C10_aggregate_bounds (weighted_fns : List (ℚ × CostFn))
    (host_list : List (String × HostInfo)) (options : Options)
    (hhosts : host_list ≠ [])
    (hw : ∀ wf ∈ weighted_fns, 0 ≤ wf.1)
    (hnt : ∀ wf ∈ weighted_fns, ¬ rowAllEqual wf host_list options) :
    ∃ fs, finalScores weighted_fns host_list options = .ok fs ∧
      ∀ x ∈ fs, 0 ≤ x ∧ x ≤ (weighted_fns.map fun wf => wf.1).sum := by
  have hnt' : ∀ wf ∈ weighted_fns,
      rowMax wf host_list options ≠ rowMin wf host_list options := by
    intro wf hwf heq
    exact hnt wf hwf ((rowMin_eq_rowMax_iff hhosts).mp heq.symm)
  refine ⟨_, finalScores_of_adjusted_ok (adjustedScores_ok hhosts hnt'), ?_⟩
  have hacc : ∀ x ∈ List.replicate host_list.length (0 : ℚ), 0 ≤ x ∧ x ≤ 0 := by
    intro x hx
    rw [List.eq_of_mem_replicate hx]
    exact ⟨le_refl 0, le_refl 0⟩
  have hf2 : List.Forall₂
      (fun row b => row.length = (List.replicate host_list.length (0 : ℚ)).length ∧
        ∀ x ∈ row, 0 ≤ x ∧ x ≤ b)
      (weighted_fns.map fun wf => adjRow wf host_list options)
      (weighted_fns.map fun wf => wf.1) := by
    apply forall₂_map_map
    intro wf hwf
    constructor
    · rw [List.length_replicate]
      exact adjRow_length
    · intro x hx
      rcases List.mem_map.mp hx with ⟨s, hs, rfl⟩
      have hmn : rowMin wf host_list options ≤ s := rowMin_le hhosts hs
      have hmx : s ≤ rowMax wf host_list options := le_rowMax hhosts hs
      have hlt : rowMin wf host_list options < rowMax wf host_list options :=
        lt_of_le_of_ne (rowMin_le_rowMax hhosts) fun heq => hnt' wf hwf heq.symm
      have hd : (0 : ℚ) < rowMax wf host_list options - rowMin wf host_list options :=
        sub_pos.mpr hlt
      constructor
      · apply div_nonneg _ (le_of_lt hd)
        exact mul_nonneg (hw wf hwf) (sub_nonneg.mpr hmn)
      · rw [div_le_iff₀ hd]
        calc wf.1 * (s - rowMin wf host_list options)
            ≤ wf.1 * (rowMax wf host_list options - rowMin wf host_list options) :=
              mul_le_mul_of_nonneg_left (sub_le_sub_right hmx _) (hw wf hwf)
          _ = wf.1 * (rowMax wf host_list options - rowMin wf host_list options) * 1 := by
              rw [mul_one]
          _ ≤ wf.1 * (rowMax wf host_list options - rowMin wf host_list options) := by
              rw [mul_one]
  intro x hx
  have := foldl_zipWith_bounds (weighted_fns.map fun wf => adjRow wf host_list options)
    (weighted_fns.map fun wf => wf.1) (List.replicate host_list.length 0) 0 hf2 hacc x
    (by simpa [sumColumns] using hx)
  rcases this with ⟨h0, h1⟩
  rw [zero_add] at h1
  exact ⟨h0, h1⟩

/-- C10 (witness): the aggregate bounds applied at a concrete input with
one cost function of weight 1 and two hosts with different free ram. -/
theorem C10_aggregate_bounds_witness :
    [("a", hostA), ("b", hostB)] ≠ ([] : List (String × HostInfo)) ∧
    (∃ fs,
      finalScores [((1 : ℚ), compute_fill_first_cost_fn)] [("a", hostA), ("b", hostB)] []
        = .ok fs ∧
      ∀ x ∈ fs, 0 ≤ x ∧
        x ≤ ([((1 : ℚ), compute_fill_first_cost_fn)].map fun wf => wf.1).sum) := by
  refine ⟨by simp, ?_⟩
  apply C10_aggregate_bounds [((1 : ℚ), compute_fill_first_cost_fn)]
    [("a", hostA), ("b", hostB)] [] (by simp)
  · intro wf hwf
    simp only [List.mem_singleton] at hwf
    subst hwf
    norm_num
  · intro wf hwf
    simp only [List.mem_singleton] at hwf
    subst hwf
    intro hall
    have h2 := hall ("a", hostA) (by simp) ("b", hostB) (by simp)
    simp only [compute_fill_first_cost_fn, hostA, hostB] at h2
    norm_num at h2

end LeastCost
